import Mathlib

/-!
Verification of the prefetch-and-cache engine of websearch-tui
(src/prefetch.rs), shallowly embedded in Lean 4.

The embedding models:
* cache-key derivation (`url_to_filename`, `sanitize_filename`),
* the storage layout (two directories of named entries with modification
  times and a per-entry deletability flag used to model best-effort
  deletion),
* the status table and its operations (`get_status`),
* the synchronous cache-check pass of `prefetch_all`,
* the asynchronous fetch phase of `prefetch_all` as a small-step
  interleaving relation whose per-task outcomes are an oracle
  (network behaviour is an external collaborator),
* promotion (`activate_page`), eviction (`cleanup_old_files`,
  `cleanup_directory`) and batch reset (`clear_current_search`),
* the fetch-extract-persist pipeline (`prefetch_single_page`) over an
  abstract HTTP/extractor environment.

External collaborators (the HTTP client, the `url` crate's parser, the
standard library hasher and Unicode alphanumeric test) are modelled as
parameters, collected in `ExternEnv` and `FetchEnv`.
-/

set_option autoImplicit false

namespace WebSearch

/-! ### Storage layout -/

/-- The two artifact directories: `current_search` (staging) and
`active_tabs` (promoted). -/
inductive DirTag
  | currentSearch
  | activeTabs
deriving DecidableEq

/-- A file path inside one of the two managed directories:
`dir.join(name)`. -/
structure FPath where
  dir : DirTag
  name : String
deriving DecidableEq

/-- A directory entry: file name, filesystem modification time (seconds),
and whether a `remove_file` call on it would succeed (models best-effort
deletion). -/
structure DirEntry where
  name : String
  mtime : Nat
  removable : Bool
deriving DecidableEq

/-- The two managed directories. -/
structure Fs where
  currentSearch : List DirEntry
  activeTabs : List DirEntry
deriving DecidableEq

def dirOf (fs : Fs) : DirTag → List DirEntry
  | .currentSearch => fs.currentSearch
  | .activeTabs => fs.activeTabs

def setDir (fs : Fs) : DirTag → List DirEntry → Fs
  | .currentSearch, d => { fs with currentSearch := d }
  | .activeTabs, d => { fs with activeTabs := d }

/-- `path.exists()` for a path in one of the managed directories. -/
def fileExists (fs : Fs) (p : FPath) : Bool :=
  (dirOf fs p.dir).any (fun e => e.name == p.name)

def findEntry (d : List DirEntry) (name : String) : Option DirEntry :=
  d.find? (fun e => e.name == name)

def removeEntry (d : List DirEntry) (name : String) : List DirEntry :=
  d.filter (fun e => !(e.name == name))

/-- Writing a file: an existing entry with the same name is overwritten. -/
def writeEntry (d : List DirEntry) (e : DirEntry) : List DirEntry :=
  removeEntry d e.name ++ [e]

/-! ### Search results and external collaborators -/

/-- `SearchResult` from src/search.rs. -/
structure SearchResult where
  title : String
  url : String
  description : String
deriving DecidableEq

/-- External collaborators used by cache-key derivation:
`isAlnum` is Rust's `char::is_alphanumeric`, `hashUrl` is
`DefaultHasher::finish` applied to the url, `parseHost` is
`Url::parse(url).ok().and_then(|u| u.host_str())`. -/
structure ExternEnv where
  isAlnum : Char → Bool
  hashUrl : String → Nat
  parseHost : String → Option String

/-! ### Cache key derivation (sanitize_filename, url_to_filename) -/

/-- First pass of `sanitize_filename`: keep alphanumerics, `-`, `_` and
spaces, replace every other character by `_`. -/
def sanitizeKeep (isAlnum : Char → Bool) (c : Char) : Char :=
  if isAlnum c || c == '-' || c == '_' || c == ' ' then c else '_'

/-- Second pass of `sanitize_filename`: collapse runs of spaces and
underscores into a single `_`; the Bool argument is `prev_was_separator`. -/
def collapseSeps : List Char → Bool → List Char
  | [], _ => []
  | c :: cs, prevSep =>
    if c == ' ' || c == '_' then
      if prevSep then collapseSeps cs true
      else '_' :: collapseSeps cs true
    else c :: collapseSeps cs false

/-- `trim_end_matches('_')`: drop all trailing underscores. -/
def trimTrailingUnderscore : List Char → List Char
  | [] => []
  | c :: cs =>
    match trimTrailingUnderscore cs with
    | [] => if c == '_' then [] else [c]
    | d :: ds => c :: d :: ds

/-- `sanitize_filename` from src/prefetch.rs. -/
def sanitizeFilename (isAlnum : Char → Bool) (title : String) : String :=
  String.mk (trimTrailingUnderscore
    (collapseSeps (title.toList.map (sanitizeKeep isAlnum)) false))

/-- `trim_start_matches("www.")`: repeatedly strip a leading `www.`. -/
def stripWww : List Char → List Char
  | 'w' :: 'w' :: 'w' :: '.' :: rest => stripWww rest
  | cs => cs

/-- Domain cleaning in `url_to_filename`: strip leading `www.` and
replace dots with underscores. -/
def cleanDomain (domain : String) : String :=
  String.mk ((stripWww domain.toList).map (fun c => if c == '.' then '_' else c))

def hexDigitChar (n : Nat) : Char :=
  if n < 10 then Char.ofNat (48 + n) else Char.ofNat (87 + n)

/-- `format!("{:08x}", n)` for `n < 2^32`: exactly eight lowercase hex
digits. -/
def hex8 (n : Nat) : String :=
  String.mk ((List.range 8).map (fun i => hexDigitChar (n / 16 ^ (7 - i) % 16)))

/-- The truncated title component of `url_to_filename`:
`safe_title.chars().take(30)`. -/
def titleComponent (isAlnum : Char → Bool) (title : String) : String :=
  String.mk ((sanitizeFilename isAlnum title).toList.take 30)

/-- `url_to_filename` from src/prefetch.rs:
`{clean_domain}_{hash:08x}_{truncated_title}.md`. -/
def urlToFilename (env : ExternEnv) (url title : String) : String :=
  let domain := (env.parseHost url).getD "unknown"
  (cleanDomain domain ++ "_" ++ hex8 (env.hashUrl url % 4294967296)
    ++ "_" ++ titleComponent env.isAlnum title) ++ ".md"

/-! ### Rust `Path::extension` and the `.md` test -/

/-- Rust `Path::extension() == Some("md")` for a plain file name:
`None` when there is no dot, or when the name starts with a dot and has
no other dot; otherwise the portion after the final dot. -/
def rustExtension (name : String) : Option String :=
  let cs := name.toList
  let body := if cs.head? == some '.' then cs.tail else cs
  if body.contains '.' then
    some (String.mk ((body.reverse.takeWhile (fun c => !(c == '.'))).reverse))
  else none

def isMdName (name : String) : Bool :=
  rustExtension name == some "md"

/-! ### Constants from src/prefetch.rs -/

def CONCURRENT_LIMIT : Nat := 12

def CACHE_MAX_AGE_DAYS : Nat := 5

/-- `CACHE_MAX_AGE_DAYS * 24 * 60 * 60` seconds. -/
def maxAgeSecs : Nat := CACHE_MAX_AGE_DAYS * 24 * 60 * 60

/-! ### Eviction (cleanup_old_files / cleanup_directory) -/

/-- The deletion test of `cleanup_directory`: a `.md` entry whose
modification time is in the past and whose age strictly exceeds
`max_age`.  (`SystemTime::duration_since` fails for future timestamps,
in which case the entry is skipped.) -/
def shouldRemove (now maxAge : Nat) (e : DirEntry) : Bool :=
  isMdName e.name && decide (e.mtime ≤ now) && decide (now - e.mtime > maxAge)

/-- `cleanup_directory`: scan all entries, delete stale `.md` files,
count successful deletions, silently skip entries whose deletion fails.
Returns the count and the directory contents afterwards. -/
def cleanupDirectory (now maxAge : Nat) : List DirEntry → Nat × List DirEntry
  | [] => (0, [])
  | e :: rest =>
    let r := cleanupDirectory now maxAge rest
    if shouldRemove now maxAge e then
      if e.removable then (r.1 + 1, r.2) else (r.1, e :: r.2)
    else (r.1, e :: r.2)

/-- `cleanup_old_files`: sweep `active_tabs`, then `current_search`, and
return the total number of removed files. -/
def cleanupOldFiles (now : Nat) (fs : Fs) : Nat × Fs :=
  let ra := cleanupDirectory now maxAgeSecs fs.activeTabs
  let rc := cleanupDirectory now maxAgeSecs fs.currentSearch
  (ra.1 + rc.1, { currentSearch := rc.2, activeTabs := ra.2 })

/-! ### Status table -/

/-- `PrefetchStatus` from src/prefetch.rs. -/
inductive PrefetchStatus
  | Pending
  | InProgress
  | Ready (path : FPath)
  | Cached (path : FPath)
  | Failed (reason : String)
  | Timeout
deriving DecidableEq

/-- `HashMap::insert`: replace the binding of `u` if present, append it
otherwise. -/
def setStatus : List (String × PrefetchStatus) → String → PrefetchStatus →
    List (String × PrefetchStatus)
  | [], u, st => [(u, st)]
  | (k, w) :: rest, u, st =>
    if k = u then (u, st) :: rest else (k, w) :: setStatus rest u st

/-- `get_status`: look the url up, defaulting to `Pending`
(`unwrap_or(PrefetchStatus::Pending)`). -/
def getStatus : List (String × PrefetchStatus) → String → PrefetchStatus
  | [], _ => .Pending
  | (k, w) :: rest, u => if k = u then w else getStatus rest u

/-- Whether the table has an entry for `u`. -/
def hasKey : List (String × PrefetchStatus) → String → Bool
  | [], _ => false
  | (k, _) :: rest, u => k == u || hasKey rest u

/-! ### Manager state, clear_current_search, activate_page -/

/-- The mutable state of a `PrefetchManager`: the two directories, the
status table and the two counters. -/
structure ManagerState where
  fs : Fs
  status : List (String × PrefetchStatus)
  completed : Nat
  total : Nat
deriving DecidableEq

/-- `clear_current_search`: clear the status table, zero both counters
and delete the `.md` files of `current_search` (deletion failures are
ignored); `active_tabs` is not touched. -/
def clearCurrentSearch (s : ManagerState) : ManagerState :=
  { fs := { currentSearch :=
              s.fs.currentSearch.filter (fun e => !(isMdName e.name && e.removable)),
            activeTabs := s.fs.activeTabs },
    status := [],
    completed := 0,
    total := 0 }

/-- `std::fs::rename`: move the entry (keeping its metadata); succeeds
exactly when the source exists, which the caller checks via
`fileExists`. -/
def moveFile (fs : Fs) (src dest : FPath) : Fs :=
  match findEntry (dirOf fs src.dir) src.name with
  | none => fs
  | some e =>
    let fs1 := setDir fs src.dir (removeEntry (dirOf fs src.dir) src.name)
    setDir fs1 dest.dir (writeEntry (dirOf fs1 dest.dir) { e with name := dest.name })

/-- The `copy` + best-effort `remove_file` fallback of `activate_page`:
copy the entry to the destination, then delete the source if deletion
succeeds (the deletion result is ignored). -/
def copyThenRemove (fs : Fs) (src dest : FPath) : Fs :=
  match findEntry (dirOf fs src.dir) src.name with
  | none => fs
  | some e =>
    let fs1 := setDir fs dest.dir (writeEntry (dirOf fs dest.dir) { e with name := dest.name })
    if e.removable then setDir fs1 src.dir (removeEntry (dirOf fs1 src.dir) src.name)
    else fs1

/-- The `Ready`/`Cached` arm of `activate_page`: if the recorded source
path is already under `active_tabs`, return it unchanged; otherwise
rename it into `active_tabs` (falling back to copy-then-delete), which
fails when the recorded source file no longer exists.  `renameWorks`
models whether `fs::rename` itself is available (same filesystem). -/
def activateFrom (renameWorks : Bool) (s : ManagerState) (srcPath : FPath) :
    Except String (FPath × ManagerState) :=
  let dest : FPath := ⟨DirTag.activeTabs, srcPath.name⟩
  if srcPath.dir = DirTag.activeTabs then .ok (srcPath, s)
  else if renameWorks && fileExists s.fs srcPath then
    .ok (dest, { s with fs := moveFile s.fs srcPath dest })
  else if fileExists s.fs srcPath then
    .ok (dest, { s with fs := copyThenRemove s.fs srcPath dest })
  else .error "Failed to copy file"

/-- `activate_page` from src/prefetch.rs.  Note that it reads the status
table but never writes it. -/
def activatePage (renameWorks : Bool) (s : ManagerState) (url : String) :
    Except String (FPath × ManagerState) :=
  match getStatus s.status url with
  | .Ready srcPath => activateFrom renameWorks s srcPath
  | .Cached srcPath => activateFrom renameWorks s srcPath
  | .InProgress => .error "Page is still loading..."
  | .Pending => .error "Page prefetch not started"
  | .Failed err => .error ("Prefetch failed: " ++ err)
  | .Timeout => .error "Page timed out after 8 seconds"

def exceptIsOk {α : Type} : Except String α → Bool
  | .ok _ => true
  | .error _ => false

/-- The payload of a successful result, if any. -/
def exceptOkVal {α : Type} : Except String α → Option α
  | .ok a => some a
  | .error _ => none

/-! ### prefetch_all: synchronous cache-check pass -/

/-- The cache check of `prefetch_all` for one result: `active_tabs`
first, then `current_search`. -/
def cachePath (env : ExternEnv) (fs : Fs) (r : SearchResult) : Option FPath :=
  let filename := urlToFilename env r.url r.title
  if fileExists fs ⟨.activeTabs, filename⟩ then some ⟨.activeTabs, filename⟩
  else if fileExists fs ⟨.currentSearch, filename⟩ then some ⟨.currentSearch, filename⟩
  else none

/-- The partition of the submitted results into `cached` (with the found
path) and `to_fetch`, in submission order. -/
def splitCached (env : ExternEnv) (fs : Fs) :
    List SearchResult → List (SearchResult × FPath) × List SearchResult
  | [] => ([], [])
  | r :: rest =>
    let p := splitCached env fs rest
    match cachePath env fs r with
    | some path => ((r, path) :: p.1, p.2)
    | none => (p.1, r :: p.2)

/-- Mark all cached items `Cached(path)` (in order). -/
def insertCachedAll (tbl : List (String × PrefetchStatus)) :
    List (SearchResult × FPath) → List (String × PrefetchStatus)
  | [] => tbl
  | (r, path) :: rest => insertCachedAll (setStatus tbl r.url (.Cached path)) rest

/-- Mark all items to fetch `Pending` (in order). -/
def insertPendingAll (tbl : List (String × PrefetchStatus)) :
    List SearchResult → List (String × PrefetchStatus)
  | [] => tbl
  | r :: rest => insertPendingAll (setStatus tbl r.url .Pending) rest

/-! ### prefetch_all: asynchronous fetch phase -/

/-- Resolution of one fetch task: the pipeline succeeded, the pipeline
returned an error message, or the 8-second timeout fired first. -/
inductive Outcome
  | success
  | failure (msg : String)
  | timedOut
deriving DecidableEq

/-- Progress of one spawned fetch task: not yet polled; has written
`InProgress` and is awaiting the fetch; has written its terminal status;
has incremented `completed` (the task future is finished). -/
inductive TaskPC
  | notStarted
  | running
  | wroteStatus
  | done
deriving DecidableEq

/-- One spawned fetch task of a batch. -/
structure FetchTask where
  url : String
  filename : String
  pc : TaskPC
deriving DecidableEq

def withPc (t : FetchTask) (pc : TaskPC) : FetchTask :=
  { t with pc := pc }

/-- The terminal status a task writes for its outcome; a successful
fetch saved its artifact under `current_search`. -/
def statusOfOutcome (filename : String) : Outcome → PrefetchStatus
  | .success => .Ready ⟨.currentSearch, filename⟩
  | .failure msg => .Failed msg
  | .timedOut => .Timeout

/-- A task occupies a concurrency slot of `for_each_concurrent` from its
first poll until its future completes. -/
def isActive (t : FetchTask) : Bool :=
  t.pc == .running || t.pc == .wroteStatus

def activeTasks (ts : List FetchTask) : Nat :=
  (ts.filter isActive).length

def countRunning (ts : List FetchTask) : Nat :=
  (ts.filter (fun t => t.pc == .running)).length

def countInProgress (tbl : List (String × PrefetchStatus)) : Nat :=
  (tbl.filter (fun kv => kv.2 == PrefetchStatus.InProgress)).length

/-- The state of one submitted batch: the shared status table, the two
counters and the spawned fetch tasks. -/
structure BatchState where
  status : List (String × PrefetchStatus)
  completed : Nat
  total : Nat
  tasks : List FetchTask
deriving DecidableEq

/-- The synchronous part of `prefetch_all` on a status table `tbl0`:
set `total`, record `Cached` for every cache hit, set
`completed = len - to_fetch.len`, record `Pending` for the rest, and
spawn one task per remaining result. -/
def prefetchAllInit (env : ExternEnv) (fs : Fs)
    (tbl0 : List (String × PrefetchStatus)) (results : List SearchResult) :
    BatchState :=
  let p := splitCached env fs results
  { status := insertPendingAll (insertCachedAll tbl0 p.1) p.2,
    completed := results.length - p.2.length,
    total := results.length,
    tasks := p.2.map (fun r => ⟨r.url, urlToFilename env r.url r.title, .notStarted⟩) }

/-- Interleaving semantics of the spawned fetch phase.  `outs i` is the
oracle resolution of task `i`'s fetch.  A task may be polled for the
first time only while fewer than `CONCURRENT_LIMIT` tasks occupy
concurrency slots; its first action writes `InProgress`, its fetch
resolution writes the terminal status, and it then increments
`completed` and releases its slot. -/
inductive BatchStep (outs : Nat → Outcome) : BatchState → BatchState → Prop
  | start (s : BatchState) (i : Nat) (t : FetchTask)
      (ht : s.tasks[i]? = some t) (hpc : t.pc = .notStarted)
      (hcap : activeTasks s.tasks < CONCURRENT_LIMIT) :
      BatchStep outs s
        { s with status := setStatus s.status t.url .InProgress,
                 tasks := s.tasks.set i (withPc t .running) }
  | finish (s : BatchState) (i : Nat) (t : FetchTask)
      (ht : s.tasks[i]? = some t) (hpc : t.pc = .running) :
      BatchStep outs s
        { s with status := setStatus s.status t.url (statusOfOutcome t.filename (outs i)),
                 tasks := s.tasks.set i (withPc t .wroteStatus) }
  | bump (s : BatchState) (i : Nat) (t : FetchTask)
      (ht : s.tasks[i]? = some t) (hpc : t.pc = .wroteStatus) :
      BatchStep outs s
        { s with completed := s.completed + 1,
                 tasks := s.tasks.set i (withPc t .done) }

/-- Reachability under the interleaving semantics. -/
abbrev BatchReach (outs : Nat → Outcome) : BatchState → BatchState → Prop :=
  Relation.ReflTransGen (BatchStep outs)

/-! ### Fetch-extract-persist pipeline (prefetch_single_page) -/

/-- An HTTP response: numeric status plus the result of reading the
body. -/
structure HttpResponse where
  status : Nat
  text : Except String String

/-- The external behaviour one pipeline run observes: the send result,
the extractor (html and source url to formatted markdown), whether the
file write succeeds, and how the HTTP library renders a status code
(`response.status()`'s `Display`). -/
structure FetchEnv where
  send : Except String HttpResponse
  extract : String → String → Except String String
  writeOk : Bool
  statusDisplay : Nat → String

/-- `StatusCode::is_success`: 2xx. -/
def isSuccessStatus (code : Nat) : Bool :=
  decide (200 ≤ code) && decide (code < 300)

/-- `prefetch_single_page` from src/prefetch.rs.  Error strings are the
`anyhow` context messages; a non-success response yields
`HTTP {status}`. -/
def prefetchSinglePage (fenv : FetchEnv) (env : ExternEnv) (r : SearchResult) :
    Except String FPath :=
  match fenv.send with
  | .error _ => .error "Failed to download page"
  | .ok resp =>
    if !isSuccessStatus resp.status then
      .error ("HTTP " ++ fenv.statusDisplay resp.status)
    else
      match resp.text with
      | .error _ => .error "Failed to read response body"
      | .ok html =>
        match fenv.extract html r.url with
        | .error _ => .error "Failed to extract content"
        | .ok _content =>
          if fenv.writeOk then .ok ⟨.currentSearch, urlToFilename env r.url r.title⟩
          else .error "Failed to save markdown file"

/-- How a task's `Outcome` arises from one pipeline run under the
8-second timeout. -/
def outcomeOfRun (timerFired : Bool) (res : Except String FPath) : Outcome :=
  if timerFired then .timedOut
  else
    match res with
    | .ok _ => .success
    | .error e => .failure e

/-! ### Auxiliary list lemmas -/

theorem mem_of_getElem_some {α : Type} {l : List α} {i : Nat} {a : α}
    (h : l[i]? = some a) : a ∈ l := by
  rcases List.getElem?_eq_some.mp h with ⟨hlt, rfl⟩
  exact List.getElem_mem hlt

theorem mem_set_of_ne {α : Type} {l : List α} {i : Nat} {a c : α} (b : α)
    (ha : a ∈ l) (hc : l[i]? = some c) (hne : a ≠ c) : a ∈ l.set i b := by
  induction l generalizing i with
  | nil => cases ha
  | cons x xs ih =>
    cases i with
    | zero =>
      simp only [List.getElem?_cons_zero, Option.some.injEq] at hc
      subst hc
      rcases List.mem_cons.mp ha with rfl | ha2
      · exact absurd rfl hne
      · exact List.mem_cons_of_mem _ ha2
    | succ n =>
      simp only [List.getElem?_cons_succ] at hc
      rcases List.mem_cons.mp ha with rfl | ha2
      · exact List.mem_cons_self _ _
      · exact List.mem_cons_of_mem _ (ih ha2 hc)

theorem mem_set_self {α : Type} {l : List α} {i : Nat} {c : α} (b : α)
    (hc : l[i]? = some c) : b ∈ l.set i b := by
  have hlt : i < l.length := (List.getElem?_eq_some.mp hc).1
  exact mem_of_getElem_some (List.getElem?_set_self (by simpa using hlt))

theorem length_filter_set {α : Type} (p : α → Bool) (l : List α) (i : Nat) (a b : α)
    (h : l[i]? = some a) :
    ((l.set i b).filter p).length + (if p a then 1 else 0)
      = (l.filter p).length + (if p b then 1 else 0) := by
  induction l generalizing i with
  | nil => simp at h
  | cons x xs ih =>
    cases i with
    | zero =>
      have hxa : x = a := by simpa using h
      subst hxa
      simp only [List.set_cons_zero, List.filter_cons]
      by_cases hp : p x <;> by_cases hq : p b <;> simp [hp, hq]
    | succ n =>
      simp only [List.getElem?_cons_succ] at h
      have hx := ih n h
      simp only [List.set_cons_succ, List.filter_cons]
      by_cases hp : p x <;> simp [hp] <;> omega

theorem length_filter_erase {α : Type} [DecidableEq α] (p : α → Bool) (t : α)
    (l : List α) (ht : t ∈ l) (hp : p t = true) :
    (l.filter p).length = ((l.erase t).filter p).length + 1 := by
  induction l with
  | nil => cases ht
  | cons x xs ih =>
    by_cases hx : x = t
    · subst hx
      simp [List.erase_cons_head, List.filter_cons, hp]
    · have ht2 : t ∈ xs := by
        rcases List.mem_cons.mp ht with h | h
        · exact absurd h.symm hx
        · exact h
      rw [List.erase_cons_tail]
      · simp only [List.filter_cons]
        by_cases hq : p x <;> simp [hq, ih ht2]
      · simp [hx]

theorem length_filter_mono {α : Type} (p q : α → Bool) (l : List α)
    (h : ∀ a ∈ l, p a = true → q a = true) :
    (l.filter p).length ≤ (l.filter q).length := by
  induction l with
  | nil => simp
  | cons x xs ih =>
    have ih2 := ih (fun a ha => h a (List.mem_cons_of_mem _ ha))
    simp only [List.filter_cons]
    by_cases hp : p x
    · rw [if_pos hp, if_pos (h x (List.mem_cons_self _ _) hp)]
      simpa using ih2
    · rw [if_neg hp]
      by_cases hq : q x
      · rw [if_pos hq]
        exact ih2.trans (Nat.le_succ _)
      · rw [if_neg hq]
        exact ih2

theorem nodup_map_getElem_ne {α β : Type} (f : α → β) {l : List α} {i j : Nat}
    {a b : α} (hn : (l.map f).Nodup) (hi : l[i]? = some a) (hj : l[j]? = some b)
    (hij : i ≠ j) : f a ≠ f b := by
  induction l generalizing i j with
  | nil => simp at hi
  | cons x xs ih =>
    simp only [List.map_cons, List.nodup_cons] at hn
    cases i with
    | zero =>
      simp only [List.getElem?_cons_zero, Option.some.injEq] at hi
      subst hi
      cases j with
      | zero => exact absurd rfl hij
      | succ m =>
        simp only [List.getElem?_cons_succ] at hj
        intro he
        exact hn.1 (he ▸ List.mem_map_of_mem f (mem_of_getElem_some hj))
    | succ n =>
      simp only [List.getElem?_cons_succ] at hi
      cases j with
      | zero =>
        simp only [List.getElem?_cons_zero, Option.some.injEq] at hj
        subst hj
        intro he
        exact hn.1 (he ▸ List.mem_map_of_mem f (mem_of_getElem_some hi))
      | succ m =>
        simp only [List.getElem?_cons_succ] at hj
        exact ih hn.2 hi hj (fun h => hij (by omega))

/-! ### Status table lemmas -/

def keys (tbl : List (String × PrefetchStatus)) : List String :=
  tbl.map Prod.fst

theorem getStatus_setStatus_self (tbl : List (String × PrefetchStatus))
    (u : String) (st : PrefetchStatus) :
    getStatus (setStatus tbl u st) u = st := by
  induction tbl with
  | nil => simp [setStatus, getStatus]
  | cons kv rest ih =>
    obtain ⟨k, w⟩ := kv
    by_cases h : k = u
    · simp [setStatus, h, getStatus]
    · simp [setStatus, h, getStatus, ih]

theorem getStatus_setStatus_ne (tbl : List (String × PrefetchStatus))
    (u v : String) (st : PrefetchStatus) (h : v ≠ u) :
    getStatus (setStatus tbl u st) v = getStatus tbl v := by
  have hvu : ¬ (u = v) := fun he => h he.symm
  induction tbl with
  | nil => simp [setStatus, getStatus, hvu]
  | cons kv rest ih =>
    obtain ⟨k, w⟩ := kv
    by_cases hk : k = u
    · rw [hk]
      simp [setStatus, getStatus, hvu]
    · simp only [setStatus, if_neg hk, getStatus]
      by_cases hv : k = v
      · simp [hv]
      · simp [hv, ih]

theorem keys_setStatus_of_mem {tbl : List (String × PrefetchStatus)} {u : String}
    (st : PrefetchStatus) (h : u ∈ keys tbl) :
    keys (setStatus tbl u st) = keys tbl := by
  induction tbl with
  | nil => cases h
  | cons kv rest ih =>
    obtain ⟨k, w⟩ := kv
    by_cases hk : k = u
    · simp [setStatus, hk, keys]
    · have h2 : u ∈ keys rest := by
        rcases List.mem_cons.mp h with he | he
        · exact absurd he.symm hk
        · exact he
      have hrec := ih h2
      simp only [setStatus, if_neg hk, keys, List.map_cons, List.cons.injEq]
      exact ⟨trivial, hrec⟩

theorem keys_setStatus_of_not_mem {tbl : List (String × PrefetchStatus)} {u : String}
    (st : PrefetchStatus) (h : u ∉ keys tbl) :
    keys (setStatus tbl u st) = keys tbl ++ [u] := by
  induction tbl with
  | nil => simp [setStatus, keys]
  | cons kv rest ih =>
    obtain ⟨k, w⟩ := kv
    have hk : ¬ (k = u) := by
      intro he
      exact h (by simp [keys, he])
    have h2 : u ∉ keys rest := by
      intro he
      exact h (List.mem_cons_of_mem _ he)
    have hrec := ih h2
    simp only [setStatus, if_neg hk, keys, List.map_cons] at hrec ⊢
    rw [hrec]
    simp

theorem keysNodup_setStatus {tbl : List (String × PrefetchStatus)} {u : String}
    (st : PrefetchStatus) (h : (keys tbl).Nodup) :
    (keys (setStatus tbl u st)).Nodup := by
  by_cases hm : u ∈ keys tbl
  · rw [keys_setStatus_of_mem st hm]; exact h
  · rw [keys_setStatus_of_not_mem st hm]
    rw [List.nodup_append]
    exact ⟨h, List.nodup_singleton u, by
      intro a ha hb
      simp only [List.mem_singleton] at hb
      exact hm (hb ▸ ha)⟩

theorem mem_setStatus {tbl : List (String × PrefetchStatus)} {u : String}
    {st : PrefetchStatus} {kv : String × PrefetchStatus}
    (h : kv ∈ setStatus tbl u st) : kv = (u, st) ∨ kv ∈ tbl := by
  induction tbl with
  | nil => simpa [setStatus] using h
  | cons kw rest ih =>
    obtain ⟨k, w⟩ := kw
    by_cases hk : k = u
    · simp only [setStatus, if_pos hk] at h
      rcases List.mem_cons.mp h with he | he
      · exact Or.inl he
      · exact Or.inr (List.mem_cons_of_mem _ he)
    · simp only [setStatus, if_neg hk] at h
      rcases List.mem_cons.mp h with he | he
      · exact Or.inr (he ▸ List.mem_cons_self _ _)
      · rcases ih he with h2 | h2
        · exact Or.inl h2
        · exact Or.inr (List.mem_cons_of_mem _ h2)

theorem mem_setStatus_of_nodup {tbl : List (String × PrefetchStatus)} {u : String}
    {st : PrefetchStatus} {kv : String × PrefetchStatus}
    (hn : (keys tbl).Nodup) (h : kv ∈ setStatus tbl u st) :
    kv = (u, st) ∨ (kv ∈ tbl ∧ kv.1 ≠ u) := by
  induction tbl with
  | nil => simpa [setStatus] using h
  | cons kw rest ih =>
    obtain ⟨k, w⟩ := kw
    simp only [keys, List.map_cons, List.nodup_cons] at hn
    by_cases hk : k = u
    · subst hk
      simp only [setStatus, if_pos rfl] at h
      rcases List.mem_cons.mp h with he | he
      · exact Or.inl he
      · refine Or.inr ⟨List.mem_cons_of_mem _ he, ?_⟩
        intro hu
        exact hn.1 (hu ▸ List.mem_map_of_mem Prod.fst he)
    · simp only [setStatus, if_neg hk] at h
      rcases List.mem_cons.mp h with he | he
      · subst he
        exact Or.inr ⟨List.mem_cons_self _ _, hk⟩
      · rcases ih hn.2 he with h2 | h2
        · exact Or.inl h2
        · exact Or.inr ⟨List.mem_cons_of_mem _ h2.1, h2.2⟩

/-! ### Lemmas about the cache-check pass -/

theorem getStatus_insertPendingAll_not_mem
    (l : List SearchResult) (tbl : List (String × PrefetchStatus)) (u : String)
    (h : u ∉ l.map SearchResult.url) :
    getStatus (insertPendingAll tbl l) u = getStatus tbl u := by
  induction l generalizing tbl with
  | nil => rfl
  | cons r rest ih =>
    have h1 : u ∉ rest.map SearchResult.url := fun he => h (List.mem_cons_of_mem _ he)
    have h2 : u ≠ r.url := fun he => h (by simp [he])
    rw [insertPendingAll, ih _ h1, getStatus_setStatus_ne _ _ _ _ h2]

theorem getStatus_insertPendingAll_mem
    (l : List SearchResult) (tbl : List (String × PrefetchStatus)) (u : String)
    (h : u ∈ l.map SearchResult.url) :
    getStatus (insertPendingAll tbl l) u = .Pending := by
  induction l generalizing tbl with
  | nil => cases h
  | cons r rest ih =>
    by_cases h1 : u ∈ rest.map SearchResult.url
    · rw [insertPendingAll, ih _ h1]
    · have h2 : u = r.url := by
        rcases List.mem_cons.mp h with he | he
        · exact he
        · exact absurd he h1
      rw [insertPendingAll, getStatus_insertPendingAll_not_mem _ _ _ h1, h2,
        getStatus_setStatus_self]

theorem getStatus_insertCachedAll_not_mem
    (l : List (SearchResult × FPath)) (tbl : List (String × PrefetchStatus)) (u : String)
    (h : u ∉ l.map (fun x => x.1.url)) :
    getStatus (insertCachedAll tbl l) u = getStatus tbl u := by
  induction l generalizing tbl with
  | nil => rfl
  | cons rp rest ih =>
    obtain ⟨r, path⟩ := rp
    have h1 : u ∉ rest.map (fun x => x.1.url) := fun he => h (List.mem_cons_of_mem _ he)
    have h2 : u ≠ r.url := fun he => h (by simp [he])
    rw [insertCachedAll, ih _ h1, getStatus_setStatus_ne _ _ _ _ h2]

theorem getStatus_insertCachedAll_mem
    (l : List (SearchResult × FPath)) (tbl : List (String × PrefetchStatus))
    (r : SearchResult) (p : FPath)
    (hn : (l.map (fun x => x.1.url)).Nodup) (h : (r, p) ∈ l) :
    getStatus (insertCachedAll tbl l) r.url = .Cached p := by
  induction l generalizing tbl with
  | nil => cases h
  | cons rp rest ih =>
    obtain ⟨r0, p0⟩ := rp
    simp only [List.map_cons, List.nodup_cons] at hn
    rcases List.mem_cons.mp h with he | he
    · injection he with h1 h2
      subst h1
      subst h2
      have hnm : r.url ∉ rest.map (fun x => x.1.url) := hn.1
      rw [insertCachedAll, getStatus_insertCachedAll_not_mem _ _ _ hnm,
        getStatus_setStatus_self]
    · exact ih _ hn.2 he

theorem mem_insertPendingAll
    (l : List SearchResult) (tbl : List (String × PrefetchStatus))
    (kv : String × PrefetchStatus) (h : kv ∈ insertPendingAll tbl l) :
    kv ∈ tbl ∨ kv.2 = .Pending := by
  induction l generalizing tbl with
  | nil => exact Or.inl h
  | cons r rest ih =>
    rcases ih _ h with h2 | h2
    · rcases mem_setStatus h2 with h3 | h3
      · exact Or.inr (by rw [h3])
      · exact Or.inl h3
    · exact Or.inr h2

theorem mem_insertCachedAll
    (l : List (SearchResult × FPath)) (tbl : List (String × PrefetchStatus))
    (kv : String × PrefetchStatus) (h : kv ∈ insertCachedAll tbl l) :
    kv ∈ tbl ∨ ∃ p, kv.2 = .Cached p := by
  induction l generalizing tbl with
  | nil => exact Or.inl h
  | cons rp rest ih =>
    obtain ⟨r, path⟩ := rp
    rcases ih _ h with h2 | h2
    · rcases mem_setStatus h2 with h3 | h3
      · exact Or.inr ⟨path, by rw [h3]⟩
      · exact Or.inl h3
    · exact Or.inr h2

theorem keysNodup_insertPendingAll
    (l : List SearchResult) (tbl : List (String × PrefetchStatus))
    (h : (keys tbl).Nodup) : (keys (insertPendingAll tbl l)).Nodup := by
  induction l generalizing tbl with
  | nil => exact h
  | cons r rest ih => exact ih _ (keysNodup_setStatus _ h)

theorem keysNodup_insertCachedAll
    (l : List (SearchResult × FPath)) (tbl : List (String × PrefetchStatus))
    (h : (keys tbl).Nodup) : (keys (insertCachedAll tbl l)).Nodup := by
  induction l generalizing tbl with
  | nil => exact h
  | cons rp rest ih =>
    obtain ⟨r, path⟩ := rp
    exact ih _ (keysNodup_setStatus _ h)

/-! ### Lemmas about splitCached -/

theorem splitCached_perm (env : ExternEnv) (fs : Fs) (rs : List SearchResult) :
    ((splitCached env fs rs).1.map (fun x => x.1.url)
      ++ (splitCached env fs rs).2.map SearchResult.url).Perm
      (rs.map SearchResult.url) := by
  induction rs with
  | nil => simp [splitCached]
  | cons r rest ih =>
    rw [splitCached]
    cases hc : cachePath env fs r with
    | some path =>
      simpa using ih.cons r.url
    | none =>
      simp only [List.map_cons]
      exact (List.perm_middle).trans (ih.cons r.url)

theorem splitCached_length (env : ExternEnv) (fs : Fs) (rs : List SearchResult) :
    (splitCached env fs rs).1.length + (splitCached env fs rs).2.length
      = rs.length := by
  induction rs with
  | nil => rfl
  | cons r rest ih =>
    rw [splitCached]
    cases hc : cachePath env fs r <;> simp <;> omega

theorem mem_splitCached_cached (env : ExternEnv) (fs : Fs) (rs : List SearchResult)
    (r : SearchResult) (p : FPath) (hr : r ∈ rs) (hc : cachePath env fs r = some p) :
    (r, p) ∈ (splitCached env fs rs).1 := by
  induction rs with
  | nil => cases hr
  | cons r0 rest ih =>
    rw [splitCached]
    rcases List.mem_cons.mp hr with he | he
    · subst he
      rw [hc]
      exact List.mem_cons_self _ _
    · cases hc0 : cachePath env fs r0 with
      | some path0 => exact List.mem_cons_of_mem _ (ih he)
      | none => exact ih he

/-! ### The concurrency-bound invariant -/

theorem statusOfOutcome_ne_inProgress (fn : String) (o : Outcome) :
    statusOfOutcome fn o ≠ .InProgress := by
  cases o <;> simp [statusOfOutcome]

theorem statusOfOutcome_isTerminal (fn : String) (o : Outcome) :
    statusOfOutcome fn o = .Timeout ∨ (∃ p, statusOfOutcome fn o = .Ready p)
      ∨ ∃ m, statusOfOutcome fn o = .Failed m := by
  cases o <;> simp [statusOfOutcome]

/-- Every `InProgress` entry of the table is witnessed by a currently
running task for its url. -/
def InProgWitness (tbl : List (String × PrefetchStatus)) (ts : List FetchTask) : Prop :=
  ∀ kv ∈ tbl, kv.2 = PrefetchStatus.InProgress →
    ∃ t ∈ ts, t.url = kv.1 ∧ t.pc = TaskPC.running

/-- Inductive invariant for the concurrency bound. -/
structure InvBound (s : BatchState) : Prop where
  hkeys : (keys s.status).Nodup
  hbound : activeTasks s.tasks ≤ CONCURRENT_LIMIT
  hwit : InProgWitness s.status s.tasks

theorem countInProgress_le_countRunning
    (tbl : List (String × PrefetchStatus)) (ts : List FetchTask)
    (hn : (keys tbl).Nodup) (hw : InProgWitness tbl ts) :
    countInProgress tbl ≤ countRunning ts := by
  induction tbl generalizing ts with
  | nil => simp [countInProgress]
  | cons kv rest ih =>
    obtain ⟨k, w⟩ := kv
    simp only [keys, List.map_cons, List.nodup_cons] at hn
    by_cases hInP : w = PrefetchStatus.InProgress
    · subst hInP
      obtain ⟨t, htm, hturl, htpc⟩ :=
        hw (k, PrefetchStatus.InProgress) (List.mem_cons_self _ _) rfl
      have hcount : countInProgress ((k, PrefetchStatus.InProgress) :: rest)
          = countInProgress rest + 1 := by
        simp [countInProgress]
      have hrun : (fun t : FetchTask => t.pc == TaskPC.running) t = true := by
        simp [htpc]
      have herase := length_filter_erase
        (fun t : FetchTask => t.pc == TaskPC.running) t ts htm hrun
      have ihe : countInProgress rest ≤ countRunning (ts.erase t) := by
        apply ih (ts.erase t) hn.2
        intro kv2 hkv2 hkv2i
        obtain ⟨t2, ht2m, ht2url, ht2pc⟩ := hw kv2 (List.mem_cons_of_mem _ hkv2) hkv2i
        refine ⟨t2, ?_, ht2url, ht2pc⟩
        have hne : t2 ≠ t := by
          intro he
          apply hn.1
          have hturl2 : t.url = k := hturl
          have : k = kv2.1 := by
            rw [← hturl2, ← he, ht2url]
          rw [this]
          exact List.mem_map_of_mem Prod.fst hkv2
        exact (List.mem_erase_of_ne hne).mpr ht2m
      have hts : countRunning ts = countRunning (ts.erase t) + 1 := herase
      rw [hcount, hts]
      omega
    · have hcount : countInProgress ((k, w) :: rest) = countInProgress rest := by
        simp [countInProgress, hInP]
      rw [hcount]
      exact ih ts hn.2 (fun kv2 hkv2 hi => hw kv2 (List.mem_cons_of_mem _ hkv2) hi)

theorem countRunning_le_activeTasks (ts : List FetchTask) :
    countRunning ts ≤ activeTasks ts := by
  apply length_filter_mono
  intro t _ hp
  simp only [isActive]
  simp at hp
  simp [hp]

theorem invBound_step {outs : Nat → Outcome} {s s' : BatchState}
    (hs : InvBound s) (hst : BatchStep outs s s') : InvBound s' := by
  cases hst with
  | start i t ht hpc hcap =>
    refine ⟨keysNodup_setStatus _ hs.hkeys, ?_, ?_⟩
    · have hset := length_filter_set isActive s.tasks i t (withPc t .running) ht
      have h1 : isActive t = false := by simp [isActive, hpc]
      have h2 : isActive (withPc t .running) = true := by simp [isActive, withPc]
      rw [h1, h2] at hset
      simp at hset
      simp only [activeTasks]
      simp only [activeTasks] at hcap
      omega
    · intro kv hkv hkvi
      rcases mem_setStatus_of_nodup hs.hkeys hkv with he | ⟨hm, hne⟩
      · refine ⟨withPc t .running, mem_set_self _ ht, ?_, rfl⟩
        simp [he, withPc]
      · obtain ⟨t2, ht2m, ht2url, ht2pc⟩ := hs.hwit kv hm hkvi
        have hnet : t2 ≠ t := by
          intro he2
          rw [he2, hpc] at ht2pc
          cases ht2pc
        exact ⟨t2, mem_set_of_ne _ ht2m ht hnet, ht2url, ht2pc⟩
  | finish i t ht hpc =>
    refine ⟨keysNodup_setStatus _ hs.hkeys, ?_, ?_⟩
    · have hset := length_filter_set isActive s.tasks i t (withPc t .wroteStatus) ht
      have h1 : isActive t = true := by simp [isActive, hpc]
      have h2 : isActive (withPc t .wroteStatus) = true := by simp [isActive, withPc]
      rw [h1, h2] at hset
      simp at hset
      simp only [activeTasks]
      have hb := hs.hbound
      simp only [activeTasks] at hb
      omega
    · intro kv hkv hkvi
      rcases mem_setStatus_of_nodup hs.hkeys hkv with he | ⟨hm, hne⟩
      · exfalso
        have : kv.2 = statusOfOutcome t.filename (outs i) := by rw [he]
        rw [hkvi] at this
        exact statusOfOutcome_ne_inProgress _ _ this.symm
      · obtain ⟨t2, ht2m, ht2url, ht2pc⟩ := hs.hwit kv hm hkvi
        have hnet : t2 ≠ t := by
          intro he2
          apply hne
          rw [← ht2url, he2]
        exact ⟨t2, mem_set_of_ne _ ht2m ht hnet, ht2url, ht2pc⟩
  | bump i t ht hpc =>
    refine ⟨hs.hkeys, ?_, ?_⟩
    · have hset := length_filter_set isActive s.tasks i t (withPc t .done) ht
      have h1 : isActive t = true := by simp [isActive, hpc]
      have h2 : isActive (withPc t .done) = false := by simp [isActive, withPc]
      rw [h1, h2] at hset
      simp at hset
      simp only [activeTasks]
      have hb := hs.hbound
      simp only [activeTasks] at hb
      omega
    · intro kv hkv hkvi
      obtain ⟨t2, ht2m, ht2url, ht2pc⟩ := hs.hwit kv hkv hkvi
      have hnet : t2 ≠ t := by
        intro he2
        rw [he2, hpc] at ht2pc
        cases ht2pc
      exact ⟨t2, mem_set_of_ne _ ht2m ht hnet, ht2url, ht2pc⟩

theorem invBound_init (env : ExternEnv) (fs : Fs) (results : List SearchResult) :
    InvBound (prefetchAllInit env fs [] results) := by
  refine ⟨?_, ?_, ?_⟩
  · exact keysNodup_insertPendingAll _ _
      (keysNodup_insertCachedAll _ _ (by simp [keys]))
  · have : activeTasks ((splitCached env fs results).2.map
        (fun r => (⟨r.url, urlToFilename env r.url r.title, .notStarted⟩ : FetchTask))) = 0 := by
      simp [activeTasks, List.filter_map, isActive, Function.comp]
    simp only [prefetchAllInit]
    rw [this]
    simp [CONCURRENT_LIMIT]
  · intro kv hkv hkvi
    exfalso
    have hkv2 : kv ∈ insertPendingAll
        (insertCachedAll [] (splitCached env fs results).1)
        (splitCached env fs results).2 := hkv
    rcases mem_insertPendingAll _ _ _ hkv2 with h2 | h2
    · rcases mem_insertCachedAll _ _ _ h2 with h3 | h3
      · cases h3
      · obtain ⟨p, hp⟩ := h3
        rw [hkvi] at hp
        cases hp
    · rw [hkvi] at h2
      cases h2

theorem invBound_reach {outs : Nat → Outcome} {s0 s : BatchState}
    (h0 : InvBound s0) (hr : BatchReach outs s0 s) : InvBound s := by
  induction hr with
  | refl => exact h0
  | tail _ hstep ih => exact invBound_step ih hstep

/-! ### The per-url monotonicity invariant -/

theorem set_of_getElem_eq {α : Type} {l : List α} {i : Nat} {a : α}
    (h : l[i]? = some a) : l.set i a = l := by
  induction l generalizing i with
  | nil => simp
  | cons x xs ih =>
    cases i with
    | zero =>
      have hxa : x = a := by simpa using h
      subst hxa
      simp
    | succ n =>
      simp only [List.getElem?_cons_succ] at h
      simp [ih h]

theorem map_url_set_withPc (ts : List FetchTask) (i : Nat) (t : FetchTask)
    (pc : TaskPC) (ht : ts[i]? = some t) :
    (ts.set i (withPc t pc)).map FetchTask.url = ts.map FetchTask.url := by
  rw [List.map_set]
  apply set_of_getElem_eq
  rw [List.getElem?_map, ht]
  rfl

/-- The status of a fetched url is determined by the phase of its task. -/
def taskMatches (outs : Nat → Outcome) (tbl : List (String × PrefetchStatus))
    (i : Nat) (t : FetchTask) : Prop :=
  (t.pc = TaskPC.notStarted → getStatus tbl t.url = .Pending)
  ∧ (t.pc = TaskPC.running → getStatus tbl t.url = .InProgress)
  ∧ ((t.pc = TaskPC.wroteStatus ∨ t.pc = TaskPC.done) →
      getStatus tbl t.url = statusOfOutcome t.filename (outs i))

/-- Inductive invariant for per-url transition monotonicity; it requires
the fetched urls to be pairwise distinct. -/
structure InvMono (outs : Nat → Outcome) (init s : BatchState) : Prop where
  hurls : s.tasks.map FetchTask.url = init.tasks.map FetchTask.url
  hnod : (s.tasks.map FetchTask.url).Nodup
  hmatch : ∀ i t, s.tasks[i]? = some t → taskMatches outs s.status i t
  hstable : ∀ u, (∀ t ∈ s.tasks, t.url ≠ u) →
    getStatus s.status u = getStatus init.status u

theorem invMono_step {outs : Nat → Outcome} {init s s' : BatchState}
    (hv : InvMono outs init s) (hst : BatchStep outs s s') :
    InvMono outs init s' := by
  cases hst with
  | start i t ht hpc hcap =>
    have hmapset := map_url_set_withPc s.tasks i t .running ht
    refine ⟨?_, ?_, ?_, ?_⟩
    · dsimp only
      rw [hmapset]
      exact hv.hurls
    · dsimp only
      rw [hmapset]
      exact hv.hnod
    · intro j tj htj
      dsimp only at htj ⊢
      by_cases hij : i = j
      · subst hij
        have hlt : i < s.tasks.length := (List.getElem?_eq_some.mp ht).1
        have htj2 : tj = withPc t .running := by
          rw [List.getElem?_set_self (by simpa using hlt)] at htj
          exact (Option.some.injEq _ _ ▸ htj).symm
        subst htj2
        refine ⟨?_, ?_, ?_⟩
        · intro h
          simp [withPc] at h
        · intro _
          exact getStatus_setStatus_self _ _ _
        · intro h
          rcases h with h | h <;> simp [withPc] at h
      · rw [List.getElem?_set_ne hij] at htj
        have hne : tj.url ≠ t.url :=
          nodup_map_getElem_ne FetchTask.url hv.hnod htj ht (fun h => hij h.symm)
        obtain ⟨m1, m2, m3⟩ := hv.hmatch j tj htj
        refine ⟨?_, ?_, ?_⟩ <;> intro hp
        · rw [getStatus_setStatus_ne _ _ _ _ hne]
          exact m1 hp
        · rw [getStatus_setStatus_ne _ _ _ _ hne]
          exact m2 hp
        · rw [getStatus_setStatus_ne _ _ _ _ hne]
          exact m3 hp
    · intro u hu
      dsimp only at hu ⊢
      have hut : u ≠ t.url := by
        intro he
        exact hu (withPc t .running) (mem_set_self _ ht) (by simp [withPc, he])
      have hus : ∀ t2 ∈ s.tasks, t2.url ≠ u := by
        intro t2 ht2 hequ
        have hmem : u ∈ (s.tasks.set i (withPc t .running)).map FetchTask.url := by
          rw [hmapset]
          exact hequ ▸ List.mem_map_of_mem _ ht2
        obtain ⟨t3, ht3m, ht3u⟩ := List.mem_map.mp hmem
        exact hu t3 ht3m ht3u
      rw [getStatus_setStatus_ne _ _ _ _ hut]
      exact hv.hstable u hus
  | finish i t ht hpc =>
    have hmapset := map_url_set_withPc s.tasks i t .wroteStatus ht
    refine ⟨?_, ?_, ?_, ?_⟩
    · dsimp only
      rw [hmapset]
      exact hv.hurls
    · dsimp only
      rw [hmapset]
      exact hv.hnod
    · intro j tj htj
      dsimp only at htj ⊢
      by_cases hij : i = j
      · subst hij
        have hlt : i < s.tasks.length := (List.getElem?_eq_some.mp ht).1
        have htj2 : tj = withPc t .wroteStatus := by
          rw [List.getElem?_set_self (by simpa using hlt)] at htj
          exact (Option.some.injEq _ _ ▸ htj).symm
        subst htj2
        refine ⟨?_, ?_, ?_⟩
        · intro h
          simp [withPc] at h
        · intro h
          simp [withPc] at h
        · intro _
          exact getStatus_setStatus_self _ _ _
      · rw [List.getElem?_set_ne hij] at htj
        have hne : tj.url ≠ t.url :=
          nodup_map_getElem_ne FetchTask.url hv.hnod htj ht (fun h => hij h.symm)
        obtain ⟨m1, m2, m3⟩ := hv.hmatch j tj htj
        refine ⟨?_, ?_, ?_⟩ <;> intro hp
        · rw [getStatus_setStatus_ne _ _ _ _ hne]
          exact m1 hp
        · rw [getStatus_setStatus_ne _ _ _ _ hne]
          exact m2 hp
        · rw [getStatus_setStatus_ne _ _ _ _ hne]
          exact m3 hp
    · intro u hu
      dsimp only at hu ⊢
      have hut : u ≠ t.url := by
        intro he
        exact hu (withPc t .wroteStatus) (mem_set_self _ ht) (by simp [withPc, he])
      have hus : ∀ t2 ∈ s.tasks, t2.url ≠ u := by
        intro t2 ht2 hequ
        have hmem : u ∈ (s.tasks.set i (withPc t .wroteStatus)).map FetchTask.url := by
          rw [hmapset]
          exact hequ ▸ List.mem_map_of_mem _ ht2
        obtain ⟨t3, ht3m, ht3u⟩ := List.mem_map.mp hmem
        exact hu t3 ht3m ht3u
      rw [getStatus_setStatus_ne _ _ _ _ hut]
      exact hv.hstable u hus
  | bump i t ht hpc =>
    have hmapset := map_url_set_withPc s.tasks i t .done ht
    refine ⟨?_, ?_, ?_, ?_⟩
    · dsimp only
      rw [hmapset]
      exact hv.hurls
    · dsimp only
      rw [hmapset]
      exact hv.hnod
    · intro j tj htj
      dsimp only at htj ⊢
      by_cases hij : i = j
      · subst hij
        have hlt : i < s.tasks.length := (List.getElem?_eq_some.mp ht).1
        have htj2 : tj = withPc t .done := by
          rw [List.getElem?_set_self (by simpa using hlt)] at htj
          exact (Option.some.injEq _ _ ▸ htj).symm
        subst htj2
        refine ⟨?_, ?_, ?_⟩
        · intro h
          simp [withPc] at h
        · intro h
          simp [withPc] at h
        · intro _
          exact (hv.hmatch i t ht).2.2 (Or.inl hpc)
      · rw [List.getElem?_set_ne hij] at htj
        exact hv.hmatch j tj htj
    · intro u hu
      dsimp only at hu ⊢
      have hus : ∀ t2 ∈ s.tasks, t2.url ≠ u := by
        intro t2 ht2 hequ
        have hmem : u ∈ (s.tasks.set i (withPc t .done)).map FetchTask.url := by
          rw [hmapset]
          exact hequ ▸ List.mem_map_of_mem _ ht2
        obtain ⟨t3, ht3m, ht3u⟩ := List.mem_map.mp hmem
        exact hu t3 ht3m ht3u
      exact hv.hstable u hus

theorem splitCached_urls_nodup (env : ExternEnv) (fs : Fs)
    (results : List SearchResult) (hnd : (results.map SearchResult.url).Nodup) :
    ((splitCached env fs results).1.map (fun x => x.1.url)).Nodup
    ∧ ((splitCached env fs results).2.map SearchResult.url).Nodup
    ∧ ((splitCached env fs results).1.map (fun x => x.1.url)).Disjoint
        ((splitCached env fs results).2.map SearchResult.url) := by
  have hperm := (splitCached_perm env fs results).symm
  have h2 := hperm.nodup hnd
  exact List.nodup_append.mp h2

theorem tasks_map_url (env : ExternEnv) (fs : Fs) (results : List SearchResult) :
    (prefetchAllInit env fs [] results).tasks.map FetchTask.url
      = (splitCached env fs results).2.map SearchResult.url := by
  simp only [prefetchAllInit, List.map_map]
  rfl

theorem invMono_init (env : ExternEnv) (fs : Fs) (results : List SearchResult)
    (outs : Nat → Outcome) (hnd : (results.map SearchResult.url).Nodup) :
    InvMono outs (prefetchAllInit env fs [] results) (prefetchAllInit env fs [] results) := by
  refine ⟨rfl, ?_, ?_, fun u _ => rfl⟩
  · rw [tasks_map_url]
    exact (splitCached_urls_nodup env fs results hnd).2.1
  · intro i t hti
    have htm : t ∈ (prefetchAllInit env fs [] results).tasks := mem_of_getElem_some hti
    have htm2 : t ∈ (splitCached env fs results).2.map
        (fun r => (⟨r.url, urlToFilename env r.url r.title, .notStarted⟩ : FetchTask)) := htm
    obtain ⟨r, hrm, hrt⟩ := List.mem_map.mp htm2
    refine ⟨?_, ?_, ?_⟩
    · intro _
      have hmem : t.url ∈ (splitCached env fs results).2.map SearchResult.url := by
        rw [← hrt]
        exact List.mem_map_of_mem _ hrm
      have : getStatus (insertPendingAll
          (insertCachedAll [] (splitCached env fs results).1)
          (splitCached env fs results).2) t.url = .Pending :=
        getStatus_insertPendingAll_mem _ _ _ hmem
      exact this
    · intro hp
      rw [← hrt] at hp
      cases hp
    · intro hp
      rw [← hrt] at hp
      rcases hp with hp | hp <;> cases hp

theorem invMono_reach {outs : Nat → Outcome} {s0 s : BatchState}
    (h0 : InvMono outs s0 s0) (hr : BatchReach outs s0 s) : InvMono outs s0 s := by
  induction hr with
  | refl => exact h0
  | tail _ hstep ih => exact invMono_step ih hstep

/-! ### Status rank and terminal states -/

/-- Rank of a status in the lifecycle order
`Pending -> InProgress -> terminal`. -/
def statusRank : PrefetchStatus → Nat
  | .Pending => 0
  | .InProgress => 1
  | .Ready _ => 2
  | .Cached _ => 2
  | .Failed _ => 2
  | .Timeout => 2

/-- The four terminal states. -/
def isTerminal : PrefetchStatus → Bool
  | .Ready _ => true
  | .Cached _ => true
  | .Failed _ => true
  | .Timeout => true
  | .Pending => false
  | .InProgress => false

theorem invMono_step_mono {outs : Nat → Outcome} {init s s' : BatchState}
    (hv : InvMono outs init s) (hst : BatchStep outs s s') (u : String) :
    statusRank (getStatus s.status u) ≤ statusRank (getStatus s'.status u)
    ∧ (isTerminal (getStatus s.status u) = true →
        getStatus s'.status u = getStatus s.status u) := by
  cases hst with
  | start i t ht hpc hcap =>
    dsimp only
    by_cases hu : u = t.url
    · subst hu
      have hold : getStatus s.status t.url = .Pending := (hv.hmatch i t ht).1 hpc
      rw [hold, getStatus_setStatus_self]
      exact ⟨by simp [statusRank], by intro h; cases h⟩
    · have hne : u ≠ t.url := hu
      rw [getStatus_setStatus_ne _ _ _ _ hne]
      exact ⟨le_refl _, fun _ => rfl⟩
  | finish i t ht hpc =>
    dsimp only
    by_cases hu : u = t.url
    · subst hu
      have hold : getStatus s.status t.url = .InProgress := (hv.hmatch i t ht).2.1 hpc
      rw [hold, getStatus_setStatus_self]
      constructor
      · rcases statusOfOutcome_isTerminal t.filename (outs i) with h | ⟨p, h⟩ | ⟨m, h⟩ <;>
          rw [h] <;> simp [statusRank]
      · intro h
        cases h
    · have hne : u ≠ t.url := hu
      rw [getStatus_setStatus_ne _ _ _ _ hne]
      exact ⟨le_refl _, fun _ => rfl⟩
  | bump i t ht hpc =>
    exact ⟨le_refl _, fun _ => rfl⟩

/-! ### Lemmas about sanitize_filename -/

/-- No two adjacent underscores. -/
def noDoubleUnderscore : List Char → Bool
  | [] => true
  | [_] => true
  | c :: d :: rest => !(c == '_' && d == '_') && noDoubleUnderscore (d :: rest)

theorem noDoubleUnderscore_cons {l : List Char} {c : Char}
    (hl : noDoubleUnderscore l = true)
    (hc : l.head? = some '_' → ¬ c = '_') :
    noDoubleUnderscore (c :: l) = true := by
  cases l with
  | nil => rfl
  | cons d ds =>
    rw [noDoubleUnderscore]
    rw [Bool.and_eq_true]
    refine ⟨?_, hl⟩
    by_cases hd : d = '_'
    · have hcne : ¬ c = '_' := hc (by simp [hd])
      simp [hcne]
    · simp [hd]

theorem mem_collapseSeps {cs : List Char} {prev : Bool} {c : Char}
    (h : c ∈ collapseSeps cs prev) :
    c = '_' ∨ (c ∈ cs ∧ ¬ c = ' ' ∧ ¬ c = '_') := by
  induction cs generalizing prev with
  | nil => cases h
  | cons a rest ih =>
    rw [collapseSeps] at h
    by_cases ha : (a == ' ' || a == '_') = true
    · rw [if_pos ha] at h
      by_cases hp : prev
      · rw [if_pos hp] at h
        rcases ih h with h2 | h2
        · exact Or.inl h2
        · exact Or.inr ⟨List.mem_cons_of_mem _ h2.1, h2.2⟩
      · rw [if_neg hp] at h
        rcases List.mem_cons.mp h with he | he
        · exact Or.inl he
        · rcases ih he with h2 | h2
          · exact Or.inl h2
          · exact Or.inr ⟨List.mem_cons_of_mem _ h2.1, h2.2⟩
    · rw [if_neg ha] at h
      simp only [Bool.or_eq_true, beq_iff_eq, not_or] at ha
      rcases List.mem_cons.mp h with he | he
      · subst he
        exact Or.inr ⟨List.mem_cons_self _ _, ha.1, ha.2⟩
      · rcases ih he with h2 | h2
        · exact Or.inl h2
        · exact Or.inr ⟨List.mem_cons_of_mem _ h2.1, h2.2⟩

theorem collapseSeps_noDouble (cs : List Char) (prev : Bool) :
    noDoubleUnderscore (collapseSeps cs prev) = true
    ∧ (prev = true → (collapseSeps cs prev).head? ≠ some '_') := by
  induction cs generalizing prev with
  | nil => exact ⟨rfl, fun _ => by simp [collapseSeps]⟩
  | cons a rest ih =>
    rw [collapseSeps]
    by_cases ha : (a == ' ' || a == '_') = true
    · rw [if_pos ha]
      by_cases hp : prev
      · rw [if_pos hp]
        exact ⟨(ih true).1, fun _ => (ih true).2 rfl⟩
      · rw [if_neg hp]
        constructor
        · exact noDoubleUnderscore_cons (ih true).1
            (fun hh => absurd hh ((ih true).2 rfl))
        · intro hq
          exact absurd hq hp
    · rw [if_neg ha]
      simp only [Bool.or_eq_true, beq_iff_eq, not_or] at ha
      constructor
      · apply noDoubleUnderscore_cons (ih false).1
        intro _
        exact ha.2
      · intro _
        simp only [List.head?_cons]
        intro hq
        exact ha.2 (Option.some.inj hq)

theorem mem_trimTrailingUnderscore {cs : List Char} {c : Char}
    (h : c ∈ trimTrailingUnderscore cs) : c ∈ cs := by
  induction cs with
  | nil => cases h
  | cons a rest ih =>
    rw [trimTrailingUnderscore] at h
    cases htr : trimTrailingUnderscore rest with
    | nil =>
      rw [htr] at h
      by_cases ha : (a == '_') = true
      · rw [if_pos ha] at h
        cases h
      · rw [if_neg ha] at h
        rcases List.mem_cons.mp h with he | he
        · exact he ▸ List.mem_cons_self _ _
        · cases he
    | cons d ds =>
      rw [htr] at h
      rcases List.mem_cons.mp h with he | he
      · exact he ▸ List.mem_cons_self _ _
      · exact List.mem_cons_of_mem _ (ih (htr ▸ he))

theorem trimTrailingUnderscore_head {cs : List Char} {d : Char} {ds : List Char}
    (h : trimTrailingUnderscore cs = d :: ds) : cs.head? = some d := by
  cases cs with
  | nil => cases h
  | cons a rest =>
    rw [trimTrailingUnderscore] at h
    cases htr : trimTrailingUnderscore rest with
    | nil =>
      rw [htr] at h
      by_cases ha : (a == '_') = true
      · rw [if_pos ha] at h
        cases h
      · rw [if_neg ha] at h
        injection h with h1 _
        rw [h1]
        rfl
    | cons e es =>
      rw [htr] at h
      injection h with h1 _
      rw [h1]
      rfl

theorem noDoubleUnderscore_trim {cs : List Char}
    (h : noDoubleUnderscore cs = true) :
    noDoubleUnderscore (trimTrailingUnderscore cs) = true := by
  induction cs with
  | nil => rfl
  | cons a rest ih =>
    have hrest : noDoubleUnderscore rest = true := by
      cases rest with
      | nil => rfl
      | cons b bs =>
        rw [noDoubleUnderscore, Bool.and_eq_true] at h
        exact h.2
    rw [trimTrailingUnderscore]
    cases htr : trimTrailingUnderscore rest with
    | nil =>
      dsimp only
      by_cases ha : (a == '_') = true
      · rw [if_pos ha]
        rfl
      · rw [if_neg ha]
        rfl
    | cons d ds =>
      dsimp only
      have hdhead := trimTrailingUnderscore_head htr
      have hnd : noDoubleUnderscore (d :: ds) = true := htr ▸ ih hrest
      apply noDoubleUnderscore_cons hnd
      simp only [List.head?_cons, Option.some.injEq]
      intro hd
      subst hd
      cases rest with
      | nil => cases hdhead
      | cons b bs =>
        have hbd : b = '_' := by
          simp only [List.head?_cons, Option.some.injEq] at hdhead
          exact hdhead
        subst hbd
        rw [noDoubleUnderscore, Bool.and_eq_true] at h
        intro hau
        rw [hau] at h
        simp at h

theorem trimTrailingUnderscore_getLast (cs : List Char) :
    ((trimTrailingUnderscore cs).getLast? == some '_') = false := by
  induction cs with
  | nil => rfl
  | cons a rest ih =>
    rw [trimTrailingUnderscore]
    cases htr : trimTrailingUnderscore rest with
    | nil =>
      by_cases ha : (a == '_') = true
      · rw [if_pos ha]
        rfl
      · rw [if_neg ha]
        simp only [List.getLast?_singleton]
        simpa using ha
    | cons d ds =>
      rw [List.getLast?_cons_cons]
      rw [htr] at ih
      exact ih

/-! ### Concrete environment used by witnesses and counterexamples -/

/-- A concrete instantiation of the external collaborators: ASCII
alphanumeric test, a constant hasher, and a parser that finds no host. -/
def envD : ExternEnv :=
  { isAlnum := Char.isAlphanum, hashUrl := fun _ => 0, parseHost := fun _ => none }

/-! ### Claim C8 -/

/-- C8: cache-key derivation is filesystem-safe.  Every character of the
sanitized title is alphanumeric, `-` or `_` (all other characters having
been replaced by the `_` separator); consecutive separators collapse (no
two adjacent underscores remain); trailing separators are trimmed; the
filename is the deterministic concatenation of domain, hash and title
components; and the title component is capped at 30 characters.  The
functions are total, so derivation has no failure mode. -/
theorem sanitize_filename_filesystem_safe (env : ExternEnv) (url title : String) :
    ((sanitizeFilename env.isAlnum title).toList.all
      (fun c => env.isAlnum c || c == '-' || c == '_')) = true
    ∧ noDoubleUnderscore (sanitizeFilename env.isAlnum title).toList = true
    ∧ ((sanitizeFilename env.isAlnum title).toList.getLast? == some '_') = false
    ∧ urlToFilename env url title =
        (cleanDomain ((env.parseHost url).getD "unknown") ++ "_"
          ++ hex8 (env.hashUrl url % 4294967296) ++ "_"
          ++ titleComponent env.isAlnum title) ++ ".md"
    ∧ (titleComponent env.isAlnum title).length ≤ 30 := by
  refine ⟨?_, ?_, ?_, rfl, ?_⟩
  · rw [List.all_eq_true]
    intro c hc
    have hc2 : c ∈ trimTrailingUnderscore
        (collapseSeps (title.toList.map (sanitizeKeep env.isAlnum)) false) := hc
    have hc3 := mem_trimTrailingUnderscore hc2
    rcases mem_collapseSeps hc3 with he | ⟨hm, hsp, hun⟩
    · simp [he]
    · obtain ⟨a, ham, hae⟩ := List.mem_map.mp hm
      by_cases hcond : (env.isAlnum a || a == '-' || a == '_' || a == ' ') = true
      · have hca : c = a := by
          rw [← hae]
          simp only [sanitizeKeep]
          rw [if_pos hcond]
        subst hca
        have hcond2 : ((env.isAlnum c = true ∨ c = '-') ∨ c = '_') ∨ c = ' ' := by
          simpa using hcond
        rcases hcond2 with ((h1 | h1) | h1) | h1
        · simp [h1]
        · simp [h1]
        · exact absurd h1 hun
        · exact absurd h1 hsp
      · exfalso
        apply hun
        rw [← hae]
        simp only [sanitizeKeep]
        rw [if_neg hcond]
  · exact noDoubleUnderscore_trim (collapseSeps_noDouble _ false).1
  · exact trimTrailingUnderscore_getLast _
  · have hlen : (titleComponent env.isAlnum title).length
        = ((sanitizeFilename env.isAlnum title).toList.take 30).length := rfl
    rw [hlen, List.length_take]
    omega

/-! ### Claim C10 -/

/-- C10: `url_to_filename` is total: for every url and title it returns
a filename of the form `s ++ ".md"`, and when the url has no parseable
host the domain component is the literal string `unknown`. -/
theorem url_to_filename_total_md (env : ExternEnv) (url title : String) :
    (∃ s, urlToFilename env url title = s ++ ".md")
    ∧ (env.parseHost url = none →
        urlToFilename env url title =
          ("unknown" ++ "_" ++ hex8 (env.hashUrl url % 4294967296)
            ++ "_" ++ titleComponent env.isAlnum title) ++ ".md") := by
  constructor
  · exact ⟨_, rfl⟩
  · intro h
    simp only [urlToFilename, h, Option.getD_none]
    rw [show cleanDomain "unknown" = "unknown" from by decide]

/-- Witness for C10 at a concrete unparseable url. -/
theorem url_to_filename_total_md_witness :
    envD.parseHost "not a url" = none
    ∧ urlToFilename envD "not a url" "Title" = "unknown_00000000_Title.md" := by
  refine ⟨rfl, ?_⟩
  rw [(url_to_filename_total_md envD "not a url" "Title").2 rfl]
  decide

/-! ### Claim C7 -/

/-- C7: `get_status` is total: a url absent from the table yields
`Pending`, never an error, and any url's status is one of the six
defined states. -/
theorem get_status_total (tbl : List (String × PrefetchStatus)) (url : String) :
    (hasKey tbl url = false → getStatus tbl url = PrefetchStatus.Pending)
    ∧ (getStatus tbl url = .Pending ∨ getStatus tbl url = .InProgress
       ∨ (∃ p, getStatus tbl url = .Ready p) ∨ (∃ p, getStatus tbl url = .Cached p)
       ∨ (∃ m, getStatus tbl url = .Failed m) ∨ getStatus tbl url = .Timeout) := by
  constructor
  · intro h
    induction tbl with
    | nil => rfl
    | cons kv rest ih =>
      obtain ⟨k, w⟩ := kv
      rw [hasKey] at h
      simp only [Bool.or_eq_false_iff] at h
      have hk : ¬ (k = url) := by
        intro he
        rw [he] at h
        simp at h
      rw [getStatus, if_neg hk]
      exact ih h.2
  · cases hst : getStatus tbl url with
    | Pending => exact Or.inl rfl
    | InProgress => exact Or.inr (Or.inl rfl)
    | Ready p => exact Or.inr (Or.inr (Or.inl ⟨p, rfl⟩))
    | Cached p => exact Or.inr (Or.inr (Or.inr (Or.inl ⟨p, rfl⟩)))
    | Failed m => exact Or.inr (Or.inr (Or.inr (Or.inr (Or.inl ⟨m, rfl⟩))))
    | Timeout => exact Or.inr (Or.inr (Or.inr (Or.inr (Or.inr rfl))))

/-- Witness for C7 on a concrete table not containing the url. -/
theorem get_status_total_witness :
    hasKey [("http://a/", PrefetchStatus.Timeout)] "http://b/" = false
    ∧ getStatus [("http://a/", PrefetchStatus.Timeout)] "http://b/"
        = PrefetchStatus.Pending := by
  refine ⟨by decide, ?_⟩
  exact (get_status_total [("http://a/", PrefetchStatus.Timeout)] "http://b/").1 (by decide)

/-! ### Claim C4 -/

/-- C4: `clear_current_search` empties the status table, zeroes both
counters, deletes the leftover `.md` artifacts of the staging directory
(when their deletion succeeds), and leaves the promoted directory
untouched. -/
theorem clear_current_search_resets (s : ManagerState)
    (h : ∀ e ∈ s.fs.currentSearch, isMdName e.name = true → e.removable = true) :
    (clearCurrentSearch s).status = []
    ∧ (clearCurrentSearch s).completed = 0
    ∧ (clearCurrentSearch s).total = 0
    ∧ (clearCurrentSearch s).fs.activeTabs = s.fs.activeTabs
    ∧ (clearCurrentSearch s).fs.currentSearch
        = s.fs.currentSearch.filter (fun e => !(isMdName e.name)) := by
  refine ⟨rfl, rfl, rfl, rfl, ?_⟩
  apply List.filter_congr
  intro e he
  by_cases hm : isMdName e.name = true
  · rw [hm, h e he hm]
    rfl
  · have hm2 : isMdName e.name = false := by
      cases hmd : isMdName e.name
      · rfl
      · exact absurd hmd hm
    rw [hm2]
    rfl

/-- Concrete manager state for the C4 witness: a removable stale
artifact and a non-markdown file in staging, one artifact in the
promoted directory, a non-empty table and non-zero counters. -/
def sC4 : ManagerState :=
  { fs := { currentSearch := [⟨"old_0_a.md", 0, true⟩, ⟨"notes.txt", 0, false⟩],
            activeTabs := [⟨"tab_0_b.md", 5, true⟩] },
    status := [("http://u/", .InProgress)], completed := 3, total := 7 }

/-- Witness for C4 at `sC4`. -/
theorem clear_current_search_resets_witness :
    (clearCurrentSearch sC4).status = []
    ∧ (clearCurrentSearch sC4).completed = 0
    ∧ (clearCurrentSearch sC4).total = 0
    ∧ (clearCurrentSearch sC4).fs.activeTabs = sC4.fs.activeTabs
    ∧ (clearCurrentSearch sC4).fs.currentSearch
        = sC4.fs.currentSearch.filter (fun e => !(isMdName e.name)) :=
  clear_current_search_resets sC4 (by decide)

/-! ### Claim C5 -/

theorem cleanupDirectory_spec (now maxAge : Nat) (dir : List DirEntry) :
    (cleanupDirectory now maxAge dir).1
      = (dir.filter (fun e => shouldRemove now maxAge e && e.removable)).length
    ∧ (cleanupDirectory now maxAge dir).2
      = dir.filter (fun e => !(shouldRemove now maxAge e && e.removable)) := by
  induction dir with
  | nil => exact ⟨rfl, rfl⟩
  | cons e rest ih =>
    rw [cleanupDirectory]
    by_cases hsr : shouldRemove now maxAge e = true <;>
      by_cases hrm : e.removable = true <;>
        simp [hsr, hrm, List.filter_cons, ih.1, ih.2]

/-- C5: the eviction sweep removes exactly the `.md` artifacts whose
modification age exceeds the retention window and whose deletion
succeeds, returns the count of successful deletions, keeps everything
else (an individual failed deletion is skipped, never aborting the
sweep), and sweeping empty directories returns 0. -/
theorem cleanup_old_files_spec (now : Nat) (fs : Fs) :
    (cleanupOldFiles now fs).1
      = (fs.activeTabs.filter
          (fun e => shouldRemove now maxAgeSecs e && e.removable)).length
        + (fs.currentSearch.filter
            (fun e => shouldRemove now maxAgeSecs e && e.removable)).length
    ∧ (cleanupOldFiles now fs).2.activeTabs
        = fs.activeTabs.filter (fun e => !(shouldRemove now maxAgeSecs e && e.removable))
    ∧ (cleanupOldFiles now fs).2.currentSearch
        = fs.currentSearch.filter (fun e => !(shouldRemove now maxAgeSecs e && e.removable))
    ∧ cleanupOldFiles now { currentSearch := [], activeTabs := [] }
        = (0, { currentSearch := [], activeTabs := [] }) := by
  refine ⟨?_, ?_, ?_, rfl⟩
  · simp only [cleanupOldFiles]
    rw [(cleanupDirectory_spec now maxAgeSecs fs.activeTabs).1,
      (cleanupDirectory_spec now maxAgeSecs fs.currentSearch).1]
  · exact (cleanupDirectory_spec now maxAgeSecs fs.activeTabs).2
  · exact (cleanupDirectory_spec now maxAgeSecs fs.currentSearch).2

/-! ### Claim C1 -/

def fnC1 : String := "example_com_00000000_Page.md"

def urlC1 : String := "http://example.com/"

/-- A manager state in which `urlC1` is `Ready` with its artifact in the
staging directory. -/
def s0C1 : ManagerState :=
  { fs := { currentSearch := [⟨fnC1, 0, true⟩], activeTabs := [] },
    status := [(urlC1, .Ready ⟨.currentSearch, fnC1⟩)],
    completed := 1, total := 1 }

/-- The state after the first promotion: the artifact moved to the
promoted directory, but the status table still records the stale staging
path. -/
def s1C1 : ManagerState :=
  { fs := { currentSearch := [], activeTabs := [⟨fnC1, 0, true⟩] },
    status := [(urlC1, .Ready ⟨.currentSearch, fnC1⟩)],
    completed := 1, total := 1 }

/-- C1 (code bug): promotion is not idempotent for a `Ready` artifact.
The first `activate_page` call moves the file and returns the promoted
path, but it never updates the status table; the table still records
`Ready(current_search/...)`, so the second call tries to rename and then
copy from the now-missing staging path and returns an error instead of
the same path. -/
theorem activate_page_not_idempotent :
    exceptOkVal (activatePage true s0C1 urlC1) = some (⟨DirTag.activeTabs, fnC1⟩, s1C1)
    ∧ getStatus s1C1.status urlC1 = .Ready ⟨DirTag.currentSearch, fnC1⟩
    ∧ exceptIsOk (activatePage true s1C1 urlC1) = false
    ∧ exceptIsOk (activatePage false s1C1 urlC1) = false := by
  refine ⟨by decide, by decide, by decide, by decide⟩

/-! ### Claim C9 -/

/-- C9: during a batch with more results than the concurrency limit, the
number of `InProgress` entries in the status table never exceeds
`CONCURRENT_LIMIT` (12) in any reachable state. -/
theorem concurrency_bound (env : ExternEnv) (fs : Fs) (results : List SearchResult)
    (outs : Nat → Outcome) (s : BatchState)
    (_hbig : results.length > CONCURRENT_LIMIT)
    (hr : BatchReach outs (prefetchAllInit env fs [] results) s) :
    countInProgress s.status ≤ CONCURRENT_LIMIT := by
  have hinv := invBound_reach (invBound_init env fs results) hr
  calc countInProgress s.status
      ≤ countRunning s.tasks :=
        countInProgress_le_countRunning _ _ hinv.hkeys hinv.hwit
    _ ≤ activeTasks s.tasks := countRunning_le_activeTasks _
    _ ≤ CONCURRENT_LIMIT := hinv.hbound

def fsEmpty : Fs := { currentSearch := [], activeTabs := [] }

/-- Thirteen results, one more than the concurrency limit. -/
def resultsC9 : List SearchResult :=
  [⟨"t", "u01", ""⟩, ⟨"t", "u02", ""⟩, ⟨"t", "u03", ""⟩, ⟨"t", "u04", ""⟩,
   ⟨"t", "u05", ""⟩, ⟨"t", "u06", ""⟩, ⟨"t", "u07", ""⟩, ⟨"t", "u08", ""⟩,
   ⟨"t", "u09", ""⟩, ⟨"t", "u10", ""⟩, ⟨"t", "u11", ""⟩, ⟨"t", "u12", ""⟩,
   ⟨"t", "u13", ""⟩]

/-- Witness for C9 at a concrete oversized batch. -/
theorem concurrency_bound_witness :
    resultsC9.length > CONCURRENT_LIMIT
    ∧ countInProgress (prefetchAllInit envD fsEmpty [] resultsC9).status
        ≤ CONCURRENT_LIMIT := by
  refine ⟨by decide, ?_⟩
  exact concurrency_bound envD fsEmpty resultsC9 (fun _ => Outcome.success) _
    (by decide) Relation.ReflTransGen.refl

/-! ### Claim C3 -/

theorem step_cast {outs : Nat → Outcome} {s a b : BatchState}
    (h : BatchStep outs s a) (he : a = b) : BatchStep outs s b :=
  he ▸ h

/-- C3 (amended): for a batch whose results have pairwise-distinct urls,
every step of the fetch phase moves each url's status forward in the
order `Pending -> InProgress -> terminal`, and a terminal status never
changes afterwards. -/
theorem per_url_order_monotone (env : ExternEnv) (fs : Fs)
    (results : List SearchResult) (outs : Nat → Outcome) (s s2 : BatchState)
    (u : String)
    (hnd : (results.map SearchResult.url).Nodup)
    (hr : BatchReach outs (prefetchAllInit env fs [] results) s)
    (hst : BatchStep outs s s2) :
    statusRank (getStatus s.status u) ≤ statusRank (getStatus s2.status u)
    ∧ (isTerminal (getStatus s.status u) = true →
        getStatus s2.status u = getStatus s.status u) :=
  invMono_step_mono (invMono_reach (invMono_init env fs results outs hnd) hr) hst u

def rW : SearchResult := ⟨"W", "http://w/", ""⟩

def initW : BatchState := prefetchAllInit envD fsEmpty [] [rW]

def tW : FetchTask := ⟨"http://w/", urlToFilename envD "http://w/" "W", .notStarted⟩

def sW2 : BatchState :=
  { status := [("http://w/", .InProgress)], completed := 0, total := 1,
    tasks := [⟨"http://w/", urlToFilename envD "http://w/" "W", .running⟩] }

/-- Witness for the amended C3 on the first step of a one-result batch. -/
theorem per_url_order_monotone_witness :
    statusRank (getStatus initW.status "http://w/")
      ≤ statusRank (getStatus sW2.status "http://w/")
    ∧ (isTerminal (getStatus initW.status "http://w/") = true →
        getStatus sW2.status "http://w/" = getStatus initW.status "http://w/") := by
  apply per_url_order_monotone envD fsEmpty [rW] (fun _ => Outcome.success)
    initW sW2 "http://w/" (by decide) Relation.ReflTransGen.refl
  exact step_cast (BatchStep.start initW 0 tW (by decide) rfl (by decide)) (by decide)

def uC3 : String := "http://dup.example/"

def rC3 : SearchResult := ⟨"Dup", uC3, ""⟩

/-- Task 0's fetch succeeds; task 1's fetch times out. -/
def outsC3 : Nat → Outcome := fun i => if i = 0 then .success else .timedOut

def initC3 : BatchState := prefetchAllInit envD fsEmpty [] [rC3, rC3]

def fnC3 : String := urlToFilename envD uC3 "Dup"

def tC3 : FetchTask := ⟨uC3, fnC3, .notStarted⟩

def sAC3 : BatchState :=
  { status := [(uC3, .InProgress)], completed := 0, total := 2,
    tasks := [⟨uC3, fnC3, .running⟩, ⟨uC3, fnC3, .notStarted⟩] }

def sBC3 : BatchState :=
  { status := [(uC3, .InProgress)], completed := 0, total := 2,
    tasks := [⟨uC3, fnC3, .running⟩, ⟨uC3, fnC3, .running⟩] }

def s2C3 : BatchState :=
  { status := [(uC3, .Ready ⟨.currentSearch, fnC3⟩)], completed := 0, total := 2,
    tasks := [⟨uC3, fnC3, .wroteStatus⟩, ⟨uC3, fnC3, .running⟩] }

def s3C3 : BatchState :=
  { status := [(uC3, .Timeout)], completed := 0, total := 2,
    tasks := [⟨uC3, fnC3, .wroteStatus⟩, ⟨uC3, fnC3, .wroteStatus⟩] }

/-- C3 counterexample: when the same url appears twice in one batch, two
fetch tasks share one table key.  In the reachable state `s2C3` the url
is terminal (`Ready`), yet the second task's completion changes it again
(to `Timeout`), so the claimed strict order with a stable terminal state
fails as stated for arbitrary submitted batches. -/
theorem per_url_order_counterexample :
    BatchReach outsC3 initC3 s2C3
    ∧ BatchStep outsC3 s2C3 s3C3
    ∧ isTerminal (getStatus s2C3.status uC3) = true
    ∧ getStatus s3C3.status uC3 ≠ getStatus s2C3.status uC3 := by
  have h1 : BatchStep outsC3 initC3 sAC3 :=
    step_cast (BatchStep.start initC3 0 tC3 (by decide) rfl (by decide)) (by decide)
  have h2 : BatchStep outsC3 sAC3 sBC3 :=
    step_cast (BatchStep.start sAC3 1 tC3 (by decide) rfl (by decide)) (by decide)
  have h3 : BatchStep outsC3 sBC3 s2C3 :=
    step_cast (BatchStep.finish sBC3 0 ⟨uC3, fnC3, .running⟩ (by decide) rfl) (by decide)
  have h4 : BatchStep outsC3 s2C3 s3C3 :=
    step_cast (BatchStep.finish s2C3 1 ⟨uC3, fnC3, .running⟩ (by decide) rfl) (by decide)
  refine ⟨?_, h4, by decide, by decide⟩
  exact Relation.ReflTransGen.head h1
    (Relation.ReflTransGen.head h2
      (Relation.ReflTransGen.head h3 Relation.ReflTransGen.refl))

/-! ### Claim C2 -/

/-- C2 (amended): for a batch whose results have pairwise-distinct urls,
every result whose cache-key file already exists in the promoted or
staging directory has status `Cached(path)` in the initial batch state
and in every reachable state (in particular it is never `Ready`), no
fetch task exists for its url, and the cached results are counted toward
`completed` immediately by the synchronous pass. -/
theorem cache_hit_no_fetch (env : ExternEnv) (fs : Fs) (results : List SearchResult)
    (outs : Nat → Outcome) (r : SearchResult) (p : FPath) (s : BatchState)
    (hnd : (results.map SearchResult.url).Nodup)
    (hr : r ∈ results)
    (hc : cachePath env fs r = some p)
    (hreach : BatchReach outs (prefetchAllInit env fs [] results) s) :
    getStatus s.status r.url = PrefetchStatus.Cached p
    ∧ s.tasks.all (fun t => !(t.url == r.url)) = true
    ∧ (prefetchAllInit env fs [] results).completed
        = (splitCached env fs results).1.length := by
  have hm := mem_splitCached_cached env fs results r p hr hc
  obtain ⟨hnodc, hnodf, hdisj⟩ := splitCached_urls_nodup env fs results hnd
  have hcu : r.url ∈ (splitCached env fs results).1.map (fun x => x.1.url) :=
    List.mem_map_of_mem _ hm
  have hnotf : r.url ∉ (splitCached env fs results).2.map SearchResult.url :=
    fun hmem => hdisj hcu hmem
  have hinit : getStatus (prefetchAllInit env fs [] results).status r.url
      = PrefetchStatus.Cached p := by
    have : getStatus (insertPendingAll
        (insertCachedAll [] (splitCached env fs results).1)
        (splitCached env fs results).2) r.url = PrefetchStatus.Cached p := by
      rw [getStatus_insertPendingAll_not_mem _ _ _ hnotf]
      exact getStatus_insertCachedAll_mem _ _ r p hnodc hm
    exact this
  have hv := invMono_reach (invMono_init env fs results outs hnd) hreach
  have htasks : ∀ t ∈ s.tasks, t.url ≠ r.url := by
    intro t htm hequ
    apply hnotf
    rw [← tasks_map_url env fs results, ← hv.hurls, ← hequ]
    exact List.mem_map_of_mem _ htm
  refine ⟨?_, ?_, ?_⟩
  · rw [hv.hstable r.url htasks, hinit]
  · rw [List.all_eq_true]
    intro t htm
    simp [htasks t htm]
  · have hlen := splitCached_length env fs results
    have : (prefetchAllInit env fs [] results).completed
        = results.length - (splitCached env fs results).2.length := rfl
    rw [this]
    omega

def rCW : SearchResult := ⟨"A", "http://cw/", ""⟩

def fsCW : Fs :=
  { currentSearch := [],
    activeTabs := [⟨urlToFilename envD "http://cw/" "A", 0, true⟩] }

def initCW : BatchState := prefetchAllInit envD fsCW [] [rCW]

/-- Witness for the amended C2 on a one-result batch with a cache hit. -/
theorem cache_hit_no_fetch_witness :
    getStatus initCW.status rCW.url
      = PrefetchStatus.Cached ⟨DirTag.activeTabs, urlToFilename envD "http://cw/" "A"⟩
    ∧ initCW.tasks.all (fun t => !(t.url == rCW.url)) = true
    ∧ initCW.completed = (splitCached envD fsCW [rCW]).1.length :=
  cache_hit_no_fetch envD fsCW [rCW] (fun _ => Outcome.success) rCW
    ⟨DirTag.activeTabs, urlToFilename envD "http://cw/" "A"⟩ initCW
    (by decide) (List.mem_cons_self _ _) (by decide) Relation.ReflTransGen.refl

def uCX : String := "http://dup.example/x"

def rAX : SearchResult := ⟨"A", uCX, ""⟩

def rBX : SearchResult := ⟨"B", uCX, ""⟩

def fsCX : Fs :=
  { currentSearch := [],
    activeTabs := [⟨urlToFilename envD uCX "A", 0, true⟩] }

def initCX : BatchState := prefetchAllInit envD fsCX [] [rAX, rBX]

/-- C2 counterexample: with two results sharing one url (different
titles, so different cache keys), one of which is already cached, the
`Pending` insert for the uncached twin overwrites the `Cached` entry and
a fetch task is still created for that url, so the claim fails as stated
for arbitrary submitted batches. -/
theorem cache_hit_counterexample :
    cachePath envD fsCX rAX = some ⟨DirTag.activeTabs, urlToFilename envD uCX "A"⟩
    ∧ getStatus initCX.status uCX = PrefetchStatus.Pending
    ∧ initCX.tasks.any (fun t => t.url == uCX) = true := by
  refine ⟨by decide, by decide, by decide⟩

/-! ### Claim C6 -/

/-- C6: a fetch whose HTTP response has non-success status 500 makes the
pipeline return the error `HTTP 500` (given that the HTTP library
renders status 500 as `500`), and the task's completion step records
`Failed "HTTP 500")` for its url while leaving every other url's status
and every other task unchanged — the failure does not abort the batch. -/
theorem http_error_failed (fenv : FetchEnv) (env : ExternEnv) (r : SearchResult)
    (resp : HttpResponse) (outs : Nat → Outcome) (s : BatchState) (i : Nat)
    (t : FetchTask) (v : String) (j : Nat)
    (hsend : fenv.send = .ok resp)
    (h500 : resp.status = 500)
    (hdisp : fenv.statusDisplay 500 = "500")
    (ht : s.tasks[i]? = some t)
    (hpc : t.pc = TaskPC.running)
    (houts : outs i = outcomeOfRun false (prefetchSinglePage fenv env r))
    (hv : v ≠ t.url) (hj : j ≠ i) :
    prefetchSinglePage fenv env r = .error "HTTP 500"
    ∧ BatchStep outs s
        { s with status := setStatus s.status t.url (.Failed "HTTP 500"),
                 tasks := s.tasks.set i (withPc t .wroteStatus) }
    ∧ getStatus (setStatus s.status t.url (.Failed "HTTP 500")) t.url
        = .Failed "HTTP 500"
    ∧ getStatus (setStatus s.status t.url (.Failed "HTTP 500")) v
        = getStatus s.status v
    ∧ (s.tasks.set i (withPc t .wroteStatus))[j]? = s.tasks[j]? := by
  have hpipe : prefetchSinglePage fenv env r = .error "HTTP 500" := by
    rw [prefetchSinglePage, hsend]
    simp only [h500, hdisp]
    rw [show isSuccessStatus 500 = false from by decide]
    rw [show ("HTTP " ++ "500") = "HTTP 500" from by decide]
    rfl
  have hout : outs i = .failure "HTTP 500" := by
    rw [houts, hpipe]
    rfl
  have hterm : statusOfOutcome t.filename (outs i)
      = PrefetchStatus.Failed "HTTP 500" := by
    rw [hout]
    rfl
  refine ⟨hpipe, ?_, ?_, ?_, ?_⟩
  · have hstep := @BatchStep.finish outs s i t ht hpc
    rw [hterm] at hstep
    exact hstep
  · exact getStatus_setStatus_self _ _ _
  · exact getStatus_setStatus_ne _ _ _ _ hv
  · exact List.getElem?_set_ne (fun h => hj h.symm)

/-- The concrete pipeline environment of the C6 witness: an HTTP 500
response, with the numeric status display. -/
def fenvC6 : FetchEnv :=
  { send := .ok { status := 500, text := .ok "<html></html>" },
    extract := fun _ _ => .ok "content",
    writeOk := true,
    statusDisplay := fun n => toString n }

def rC6 : SearchResult := ⟨"T", "http://err/", ""⟩

def tC6 : FetchTask := ⟨"http://err/", "f.md", .running⟩

def sC6 : BatchState :=
  { status := [("http://err/", .InProgress), ("http://other/", .InProgress)],
    completed := 0, total := 2,
    tasks := [tC6, ⟨"http://other/", "g.md", .running⟩] }

def outsC6 : Nat → Outcome := fun i =>
  if i = 0 then outcomeOfRun false (prefetchSinglePage fenvC6 envD rC6)
  else Outcome.success

/-- Witness for C6 at a concrete two-task batch state. -/
theorem http_error_failed_witness :
    prefetchSinglePage fenvC6 envD rC6 = .error "HTTP 500"
    ∧ BatchStep outsC6 sC6
        { sC6 with status := setStatus sC6.status tC6.url (.Failed "HTTP 500"),
                   tasks := sC6.tasks.set 0 (withPc tC6 .wroteStatus) }
    ∧ getStatus (setStatus sC6.status tC6.url (.Failed "HTTP 500")) tC6.url
        = .Failed "HTTP 500"
    ∧ getStatus (setStatus sC6.status tC6.url (.Failed "HTTP 500")) "http://other/"
        = getStatus sC6.status "http://other/"
    ∧ (sC6.tasks.set 0 (withPc tC6 .wroteStatus))[1]? = sC6.tasks[1]? :=
  http_error_failed fenvC6 envD rC6 { status := 500, text := .ok "<html></html>" }
    outsC6 sC6 0 tC6 "http://other/" 1 rfl rfl (by decide) (by decide) rfl rfl
    (by decide) (by decide)

end WebSearch
